import Mathlib

/-!
Verification of the memory indexing and hybrid retrieval engine of this
repository (`src/agent/memory/_sandbox_script.py`): markdown chunking,
incremental sync against the index store, and hybrid vector+lexical search.

Modelling conventions:
* Python strings are Lean `String`s; Python `len` on a string is
  `String.length` (both count Unicode code points).
* Python floats are modelled as exact rationals (`ℚ`).
* `hashlib.md5(x).hexdigest()` is modelled as the string `x` itself: an
  injective stand-in for the digest.  The theorems only ever compare digests
  of strings, never inspect them.
* The LanceDB table is modelled as a list of chunk records; `table.delete`
  with a `path = "..."` predicate removes exactly the records with that path,
  `table.add` appends, and the OpenAI embedding call that `add` triggers
  succeeds iff an `embedOk` flag is set; when it fails the exception
  propagates out of `cmd_sync`, modelled by the `raised` outcome.
* Filesystem listing and file reads are oracle inputs (`currentFiles`,
  `readFile`), matching the script's use of `iterdir`/`stat`/`read_text`.
* The vector / FTS query results returned by LanceDB are oracle inputs of
  `cmd_search` (`vectorRows`, `ftsRowsRaw`), matching the script's use of
  `table.search(...)`.
-/

set_option maxRecDepth 8000

namespace MemoryIndex

/-! ### Constants (from the top of `_sandbox_script.py`) -/

def SESSIONS_DIR : String := "/default-user/session-transcripts"

def CHUNK_TOKENS : Nat := 400

def CHUNK_OVERLAP : Nat := 80

def CHARS_PER_TOKEN : Nat := 4

def VECTOR_WEIGHT : ℚ := 0.7

def TEXT_WEIGHT : ℚ := 0.3

def CANDIDATE_MULTIPLIER : Nat := 4

def MIN_SCORE : ℚ := 0.35

/-! ### Python string primitives used by the script -/

/-- Whitespace as stripped by Python's `str.strip()` (the ASCII cases;
the script only ever meets these). -/
def pywsp (c : Char) : Bool :=
  c = ' ' || c = '\t' || c = '\n' || c = '\r' || c = '\x0b' || c = '\x0c'

/-- Python `s.strip()`: drop leading and trailing whitespace. -/
def pstrip (s : String) : String :=
  String.mk (((s.data.dropWhile pywsp).reverse.dropWhile pywsp).reverse)

/-- Python `content.split("\n")` (note: yields `[""]` on the empty string). -/
def splitNLAux : List Char → List Char → List String
  | [], acc => [String.mk acc.reverse]
  | c :: cs, acc =>
    if c = '\n' then String.mk acc.reverse :: splitNLAux cs []
    else splitNLAux cs (c :: acc)

def splitLines (s : String) : List String :=
  splitNLAux s.data []

/-- Python `"\n".join(lines)`. -/
def joinNL : List String → String
  | [] => ""
  | [l] => l
  | l :: ls => l ++ "\n" ++ joinNL ls

/-! ### Chunker (`chunk_markdown`) -/

/-- A chunk draft as produced by `chunk_markdown` (before `cmd_sync`
decorates it with source / hash / id). -/
structure ChunkDraft where
  text : String
  path : String
  start_line : Nat
  end_line : Nat
deriving DecidableEq, Repr

/-- The overlap-retention walk: iterate `reversed(buf)`, accumulate
`len(ol) + 1`, prepend, and stop as soon as the overlap budget is reached.
Mirrors the `for ol in reversed(buf): ...` loop of `chunk_markdown`.
Arguments: overlap budget, remaining reversed buffer, accumulator,
accumulated character count.  Returns `(overlap_buf, overlap_count)`. -/
def overlapGo (oc : Nat) : List String → List String → Nat → List String × Nat
  | [], acc, cnt => (acc, cnt)
  | l :: ls, acc, cnt =>
    let cnt' := cnt + l.length + 1
    if oc ≤ cnt' then (l :: acc, cnt') else overlapGo oc ls (l :: acc) cnt'

/-- The main accumulation loop of `chunk_markdown`, over the remaining lines.
State: current (1-indexed) line number `n`, chunks emitted so far, buffer,
buffer character count, start line of the next chunk.  Returns the emitted
chunks together with the final buffer and its start line (used by the final
flush).  `line_num - len(overlap_buf) + 1` is written `n + 1 - length` (equal
in every reachable state, where `length ≤ n`). -/
def chunkLoop (cc oc : Nat) (path : String) :
    List String → Nat → List ChunkDraft → List String → Nat → Nat →
    List ChunkDraft × List String × Nat
  | [], _, chunks, buf, _, s => (chunks, buf, s)
  | line :: rest, n, chunks, buf, bc, s =>
    let buf' := buf ++ [line]
    let bc' := bc + line.length + 1
    if cc ≤ bc' then
      let t := pstrip (joinNL buf')
      let chunks' := if t = "" then chunks else chunks ++ [⟨t, path, s, n⟩]
      let ob := overlapGo oc buf'.reverse [] 0
      chunkLoop cc oc path rest (n + 1) chunks' ob.1 ob.2 (n + 1 - ob.1.length)
    else
      chunkLoop cc oc path rest (n + 1) chunks buf' bc' s

/-- `chunk_markdown(content, path, chunk_tokens, overlap)`: split markdown
into overlapping chunks with line-number tracking. -/
def chunk_markdown (content path : String) (chunk_tokens overlap : Nat) :
    List ChunkDraft :=
  let lines := splitLines content
  if lines.isEmpty then []
  else
    let cc := chunk_tokens * CHARS_PER_TOKEN
    let oc := overlap * CHARS_PER_TOKEN
    let r := chunkLoop cc oc path lines 1 [] [] 0 1
    let t := pstrip (joinNL r.2.1)
    if t = "" then r.1 else r.1 ++ [⟨t, path, r.2.2, lines.length⟩]

/-! ### Sync engine (`cmd_sync`) -/

/-- `_classify_source(path)`: derive a source label from the file path. -/
def _classify_source (path : String) : String :=
  if path.startsWith SESSIONS_DIR then "sessions" else "memory"

/-- The `(st_mtime, st_size)` pair recorded for a current file. -/
structure FileMeta where
  mtime : Nat
  size : Nat
deriving DecidableEq, Repr

/-- `hashlib.md5(f"{mtime}:{size}".encode()).hexdigest()`, with md5 modelled
as the identity on the formatted string. -/
def metaHash (m : FileMeta) : String :=
  toString m.mtime ++ ":" ++ toString m.size

/-- A row of the `memory_chunks` table (the stored embedding vector is not
modelled; it is produced by the external provider and never read back by the
script). -/
structure Chunk where
  text : String
  path : String
  source : String
  start_line : Nat
  end_line : Nat
  doc_hash : String
  chunk_id : String
deriving DecidableEq, Repr

/-- The `indexed_meta` map of `cmd_sync`: `path → doc_hash` built by
iterating the table rows, later rows overwriting earlier ones (Python dict
assignment semantics). -/
def indexedLookup (store : List Chunk) (p : String) : Option String :=
  ((store.filter (fun c => c.path == p)).getLast?).map Chunk.doc_hash

/-- One `table.delete(f'path = "{path}"')` call. -/
def deleteByPath (store : List Chunk) (p : String) : List Chunk :=
  store.filter (fun c => !(c.path == p))

/-- The chunk records built for one entry of `files_to_index`: read the file
(`None` = read failure, skipped), chunk it, and decorate each chunk with
source label, doc hash and chunk id.  `ph = (path, meta_hash)`. -/
def fileChunks (readFile : String → Option String) (ph : String × String) :
    List Chunk :=
  match readFile ph.1 with
  | none => []
  | some content =>
    (chunk_markdown content ph.1 CHUNK_TOKENS CHUNK_OVERLAP).enum.map
      (fun ic =>
        ⟨ic.2.text, ic.2.path, _classify_source ph.1, ic.2.start_line,
         ic.2.end_line, ph.2, ph.1 ++ "::" ++ toString ic.1⟩)

/-- One step of the read/chunk loop of `cmd_sync` over `files_to_index`:
on read failure the file is skipped (`continue`); otherwise its old chunks
are deleted from the table and its new chunks appended to `all_chunks`.
The pair is `(table rows, all_chunks)`. -/
def syncStep (readFile : String → Option String)
    (ac : List Chunk × List Chunk) (ph : String × String) :
    List Chunk × List Chunk :=
  match readFile ph.1 with
  | none => ac
  | some _ => (deleteByPath ac.1 ph.1, ac.2 ++ fileChunks readFile ph)

/-- Outcome of one `cmd_sync` invocation: the JSON written to stdout, or
`raised` when the `table.add` embedding call throws and the exception
propagates out of the script. -/
inductive SyncOutcome where
  | errorNoKey : SyncOutcome
  | raised : SyncOutcome
  | ok : Nat → Nat → Nat → Option Nat → SyncOutcome
deriving DecidableEq, Repr

def SyncOutcome.indexedCount : SyncOutcome → Option Nat
  | .ok i _ _ _ => some i
  | _ => none

def SyncOutcome.deletedCount : SyncOutcome → Option Nat
  | .ok _ d _ _ => some d
  | _ => none

/-- Result of a `cmd_sync` invocation: outcome, table contents afterwards,
and how many chunk texts were sent to the embedding provider. -/
structure SyncResult where
  outcome : SyncOutcome
  store : List Chunk
  embedded : Nat
deriving DecidableEq, Repr

/-- The `files_to_index` diff of `cmd_sync`: current files that are new, or
whose recorded fingerprint no longer matches, each tagged with the fresh
fingerprint. -/
def filesToIndex (store : List Chunk)
    (currentFiles : List (String × FileMeta)) : List (String × String) :=
  currentFiles.filterMap (fun pm =>
    let h := metaHash pm.2
    match indexedLookup store pm.1 with
    | none => some (pm.1, h)
    | some h0 => if h0 = h then none else some (pm.1, h))

/-- The `files_to_delete` diff of `cmd_sync`: recorded paths absent from the
current file set (`set(indexed_meta.keys()) - set(current_files.keys())`,
iterated in first-appearance order; the per-path deletes commute). -/
def filesToDelete (store : List Chunk)
    (currentFiles : List (String × FileMeta)) : List String :=
  ((store.map Chunk.path).dedup).filter
    (fun p => !(currentFiles.any (fun pm => pm.1 == p)))

/-- `cmd_sync`.  `apiKey`: an OpenAI key is available (argument or env);
`embedOk`: the embedding provider call made by `table.add` succeeds;
`store`: the `memory_chunks` rows before the call; `currentFiles`: the
`.md` files found under the memory/session directories with their stat
metadata, in listing order (a Python dict, so paths are unique);
`readFile`: file contents (`none` = unreadable).  The FTS index rebuild is
wrapped in `try/except` in the script and never affects the rows or the
returned JSON, so it is not modelled. -/
def cmd_sync (apiKey embedOk : Bool) (store : List Chunk)
    (currentFiles : List (String × FileMeta))
    (readFile : String → Option String) : SyncResult :=
  if apiKey = false then ⟨.errorNoKey, store, 0⟩
  else if currentFiles.isEmpty then ⟨.ok 0 0 0 none, store, 0⟩
  else
    let fti := filesToIndex store currentFiles
    let ftd := filesToDelete store currentFiles
    if fti.isEmpty ∧ ftd.isEmpty then
      ⟨.ok 0 0 currentFiles.length none, store, 0⟩
    else
      let store1 := ftd.foldl deleteByPath store
      let r2 := fti.foldl (syncStep readFile) (store1, [])
      if r2.2.isEmpty then
        ⟨.ok fti.length ftd.length
           (currentFiles.length - fti.length) (some 0), r2.1, 0⟩
      else if embedOk then
        ⟨.ok fti.length ftd.length
           (currentFiles.length - fti.length) (some r2.2.length),
         r2.1 ++ r2.2, r2.2.length⟩
      else ⟨.raised, r2.1, 0⟩

/-! ### Hybrid search (`cmd_search`, `_merge_hybrid_results`) -/

/-- `_bm25_rank_to_score(rank)`: convert a 0-based BM25 ordinal rank to a
score in `(0, 1]` as `1 / (1 + rank)`. -/
def _bm25_rank_to_score (rank : Nat) : ℚ :=
  1 / (1 + (rank : ℚ))

/-- A result row as returned by a LanceDB query (`to_dict("records")`).
Only the fields the script reads are modelled; `Option` models a possibly
absent column (`row.get`): `distance` is the `_distance` column of vector
results, `raw_score` the raw BM25 `_score` column of FTS results (never read
by the script), `rank_score` the `_rank_score` key the script itself
assigns. -/
structure Row where
  chunk_id : String
  distance : Option ℚ
  raw_score : Option ℚ
  rank_score : Option ℚ
deriving DecidableEq, Repr

/-- The `for rank, row in enumerate(rows): row["_rank_score"] = ...` loop of
`cmd_search`: FTS results are ordered best-first, so position is the BM25
ordinal rank. -/
def assignRankScores (rows : List Row) : List Row :=
  rows.enum.map (fun ir =>
    ⟨ir.2.chunk_id, ir.2.distance, ir.2.raw_score,
     some (_bm25_rank_to_score ir.1)⟩)

/-- A `by_id` entry during the hybrid merge. -/
structure MergedRow where
  chunk_id : String
  vector_score : ℚ
  text_score : ℚ
deriving DecidableEq, Repr

/-- A fused entry after scoring (the dicts flowing out of
`_merge_hybrid_results` / the single-modality branches).  `vector_score` and
`text_score` are `none` in the single-modality branches, which never set
those keys. -/
structure ScoredEntry where
  chunk_id : String
  vector_score : Option ℚ
  text_score : Option ℚ
  score : ℚ
deriving DecidableEq, Repr

/-- The vector loop of `_merge_hybrid_results`:
`by_id[cid] = {**row, vector_score: 1 - row.get("_distance", 1.0),
text_score: 0}`.  A Python dict keeps the original position on overwrite. -/
def upsertVector (acc : List MergedRow) (row : Row) : List MergedRow :=
  let e : MergedRow := ⟨row.chunk_id, 1 - row.distance.getD 1, 0⟩
  if acc.any (fun x => x.chunk_id == row.chunk_id) then
    acc.map (fun x => if x.chunk_id == row.chunk_id then e else x)
  else acc ++ [e]

/-- The FTS loop of `_merge_hybrid_results`: update `text_score` of an
existing entry, else append a new entry with `vector_score = 0`. -/
def upsertText (acc : List MergedRow) (row : Row) : List MergedRow :=
  let ts := row.rank_score.getD 0
  if acc.any (fun x => x.chunk_id == row.chunk_id) then
    acc.map (fun x =>
      if x.chunk_id == row.chunk_id then ⟨x.chunk_id, x.vector_score, ts⟩
      else x)
  else acc ++ [⟨row.chunk_id, 0, ts⟩]

/-- Stable descending insertion (ties keep earlier elements first), the net
effect of Python's stable `merged.sort(key=..., reverse=True)`. -/
def insertDescend (e : ScoredEntry) : List ScoredEntry → List ScoredEntry
  | [] => [e]
  | x :: xs => if x.score < e.score then e :: x :: xs else x :: insertDescend e xs

/-- Python's `list.sort(key=lambda x: x["score"], reverse=True)`: the stable
sort by descending score. -/
def sortByScoreDescend (l : List ScoredEntry) : List ScoredEntry :=
  l.foldl (fun acc e => insertDescend e acc) []

/-- `_merge_hybrid_results(vector_rows, fts_rows, vector_weight,
text_weight)`: union by `chunk_id`, linear combination scoring with weights
normalized to sum to 1, missing modality scoring 0, sorted by descending
fused score. -/
def _merge_hybrid_results (vectorRows ftsRows : List Row)
    (vectorWeight textWeight : ℚ) : List ScoredEntry :=
  let total := vectorWeight + textWeight
  let vw := if 0 < total then vectorWeight / total else vectorWeight
  let tw := if 0 < total then textWeight / total else textWeight
  let byId := ftsRows.foldl upsertText (vectorRows.foldl upsertVector [])
  let merged := byId.map (fun x =>
    (⟨x.chunk_id, some x.vector_score, some x.text_score,
      vw * x.vector_score + tw * x.text_score⟩ : ScoredEntry))
  sortByScoreDescend merged

/-- The output loop of `cmd_search`: `continue` on entries whose score is
below `min_score`, `break` once `max_results` entries are kept.  (The
per-entry display formatting — snippet truncation and score rounding — is
not modelled; it does not change which entries are returned or their
order.) -/
def filterTruncate (minScore : ℚ) : Nat → List ScoredEntry → List ScoredEntry
  | _, [] => []
  | maxResults, e :: rest =>
    if e.score < minScore then filterTruncate minScore maxResults rest
    else if maxResults = 0 then []
    else e :: filterTruncate minScore (maxResults - 1) rest

/-- The JSON object written by `cmd_search`: the `results` list and the
optional informational `message`. -/
structure SearchOutput where
  results : List ScoredEntry
  message : Option String
deriving DecidableEq, Repr

/-- `cmd_search`.  `tableExists`: the `memory_chunks` table is present;
`query` is the query string (its effect is carried by the oracle rows);
`vectorRows` / `ftsRowsRaw` are the rows the two LanceDB searches return
(empty on a caught search failure, per the `try/except` blocks). -/
def cmd_search (tableExists : Bool) (query : String)
    (vectorRows ftsRowsRaw : List Row) (maxResults : Nat) (minScore : ℚ) :
    SearchOutput :=
  if tableExists = false then ⟨[], some "No memory index found"⟩
  else
    let ftsRows := assignRankScores ftsRowsRaw
    if vectorRows.isEmpty && ftsRows.isEmpty then ⟨[], none⟩
    else
      let merged :=
        if !vectorRows.isEmpty && !ftsRows.isEmpty then
          _merge_hybrid_results vectorRows ftsRows VECTOR_WEIGHT TEXT_WEIGHT
        else if !vectorRows.isEmpty then
          sortByScoreDescend (vectorRows.map (fun r =>
            ⟨r.chunk_id, none, none, 1 - r.distance.getD 1⟩))
        else
          sortByScoreDescend (ftsRows.map (fun r =>
            ⟨r.chunk_id, none, none, r.rank_score.getD 0⟩))
      ⟨filterTruncate minScore maxResults merged, none⟩

/-- The C5/C7 fusion scenario's vector rows: `{A: dist 0.1, B: dist 0.4}`. -/
def scenarioVectorRows : List Row :=
  [⟨"A", some 0.1, none, none⟩, ⟨"B", some 0.4, none, none⟩]

/-- The C5/C7 fusion scenario's lexical rows, ranked `[B, C]` (the raw BM25
magnitudes are arbitrary — they are never used). -/
def scenarioFtsRows : List Row :=
  [⟨"B", none, some 12, none⟩, ⟨"C", none, some 3, none⟩]

/-! ### Helper notions for the chunker theorems -/

/-- The line range `[start_line, end_line]` of some chunk in `cs` contains
line `i`. -/
def covers (cs : List ChunkDraft) (i : Nat) : Prop :=
  ∃ ch ∈ cs, ch.start_line ≤ i ∧ i ≤ ch.end_line

instance (cs : List ChunkDraft) (i : Nat) : Decidable (covers cs i) :=
  List.decidableBEx _ cs

/-- The string contains at least one character Python's `strip` keeps. -/
def hasNonWs (s : String) : Prop :=
  ∃ c ∈ s.data, pywsp c = false

instance (s : String) : Decidable (hasNonWs s) :=
  List.decidableBEx _ s.data

/-! ### Helper lemmas: Python string model -/

theorem mem_data_joinNL : ∀ {ls : List String} {l : String} {c : Char},
    l ∈ ls → c ∈ l.data → c ∈ (joinNL ls).data := by
  intro ls
  induction ls with
  | nil => intro l c h; exact absurd h (List.not_mem_nil _)
  | cons x xs ih =>
    intro l c h hc
    rcases List.mem_cons.mp h with rfl | hmem
    · cases xs with
      | nil => simpa [joinNL] using hc
      | cons y ys =>
        show c ∈ (l ++ "\n" ++ joinNL (y :: ys)).data
        rw [String.data_append, String.data_append]
        exact List.mem_append_left _ (List.mem_append_left _ hc)
    · cases xs with
      | nil => exact absurd hmem (List.not_mem_nil _)
      | cons y ys =>
        show c ∈ (x ++ "\n" ++ joinNL (y :: ys)).data
        rw [String.data_append]
        exact List.mem_append_right _ (ih hmem hc)

theorem exists_mem_dropWhile {α : Type} (p : α → Bool) :
    ∀ {l : List α}, (∃ c ∈ l, p c = false) →
      ∃ c ∈ l.dropWhile p, p c = false := by
  intro l
  induction l with
  | nil => rintro ⟨c, hc, -⟩; exact absurd hc (List.not_mem_nil _)
  | cons a l ih =>
    rintro ⟨c, hc, hpc⟩
    by_cases hpa : p a = true
    · rw [List.dropWhile_cons_of_pos hpa]
      rcases List.mem_cons.mp hc with rfl | hcl
      · exact absurd hpa (by simp [hpc])
      · exact ih ⟨c, hcl, hpc⟩
    · rw [List.dropWhile_cons_of_neg hpa]
      exact ⟨c, hc, hpc⟩

theorem pstrip_ne_empty {s : String} (h : hasNonWs s) : pstrip s ≠ "" := by
  obtain ⟨c, hc, hpc⟩ := h
  obtain ⟨c1, hc1, hpc1⟩ := exists_mem_dropWhile pywsp ⟨c, hc, hpc⟩
  obtain ⟨c2, hc2, hpc2⟩ :=
    exists_mem_dropWhile pywsp ⟨c1, List.mem_reverse.mpr hc1, hpc1⟩
  intro heq
  have hdata : (pstrip s).data = [] := by rw [heq]
  have : c2 ∈ (pstrip s).data := by
    simpa [pstrip] using List.mem_reverse.mpr hc2
  rw [hdata] at this
  exact absurd this (List.not_mem_nil _)

theorem pstrip_joinNL_ne_empty {ls : List String} {l : String}
    (hl : l ∈ ls) (hw : hasNonWs l) : pstrip (joinNL ls) ≠ "" := by
  obtain ⟨c, hc, hpc⟩ := hw
  exact pstrip_ne_empty ⟨c, mem_data_joinNL hl hc, hpc⟩

/-! ### Helper lemmas: overlapGo -/

theorem overlapGo_length_le (oc : Nat) : ∀ (ls acc : List String) (cnt : Nat),
    (overlapGo oc ls acc cnt).1.length ≤ ls.length + acc.length := by
  intro ls
  induction ls with
  | nil => intro acc cnt; simp [overlapGo]
  | cons l ls ih =>
    intro acc cnt
    rw [overlapGo]
    split
    · simp only [List.length_cons]; omega
    · have := ih (l :: acc) (cnt + l.length + 1)
      simp only [List.length_cons] at this ⊢
      omega

theorem overlapGo_length_ge (oc : Nat) : ∀ (ls acc : List String) (cnt : Nat),
    acc.length ≤ (overlapGo oc ls acc cnt).1.length := by
  intro ls
  induction ls with
  | nil => intro acc cnt; simp [overlapGo]
  | cons l ls ih =>
    intro acc cnt
    rw [overlapGo]
    split
    · simp
    · have := ih (l :: acc) (cnt + l.length + 1)
      simp only [List.length_cons] at this
      omega

theorem overlapGo_ne_nil (oc : Nat) (ls acc : List String) (cnt : Nat)
    (h : ls ≠ []) : (overlapGo oc ls acc cnt).1 ≠ [] := by
  cases ls with
  | nil => exact absurd rfl h
  | cons l ls =>
    have h1 := overlapGo_length_ge oc (l :: ls) acc cnt
    intro heq
    rw [overlapGo] at heq
    revert heq
    split
    · simp
    · intro heq
      have h2 := overlapGo_length_ge oc ls (l :: acc) (cnt + l.length + 1)
      rw [heq] at h2
      simp at h2

theorem overlapGo_mem (oc : Nat) : ∀ (ls acc : List String) (cnt : Nat)
    (x : String), x ∈ (overlapGo oc ls acc cnt).1 → x ∈ ls ∨ x ∈ acc := by
  intro ls
  induction ls with
  | nil => intro acc cnt x hx; simp only [overlapGo] at hx; exact Or.inr hx
  | cons l ls ih =>
    intro acc cnt x hx
    rw [overlapGo] at hx
    revert hx
    split
    · intro hx
      rcases List.mem_cons.mp hx with rfl | hx
      · exact Or.inl (List.mem_cons_self _ _)
      · exact Or.inr hx
    · intro hx
      rcases ih (l :: acc) (cnt + l.length + 1) x hx with hx | hx
      · exact Or.inl (List.mem_cons_of_mem _ hx)
      · rcases List.mem_cons.mp hx with rfl | hx
        · exact Or.inl (List.mem_cons_self _ _)
        · exact Or.inr hx

/-! ### Helper lemmas: chunkLoop -/

theorem chunkLoop_cons_cut {cc oc : Nat} {path line : String}
    {rest : List String} {n : Nat} {chunks : List ChunkDraft}
    {buf : List String} {bc s : Nat} (hc : cc ≤ bc + line.length + 1) :
    chunkLoop cc oc path (line :: rest) n chunks buf bc s =
      chunkLoop cc oc path rest (n + 1)
        (if pstrip (joinNL (buf ++ [line])) = "" then chunks
         else chunks ++ [⟨pstrip (joinNL (buf ++ [line])), path, s, n⟩])
        (overlapGo oc (buf ++ [line]).reverse [] 0).1
        (overlapGo oc (buf ++ [line]).reverse [] 0).2
        (n + 1 - (overlapGo oc (buf ++ [line]).reverse [] 0).1.length) := by
  simp only [chunkLoop, if_pos hc]

theorem chunkLoop_cons_nocut {cc oc : Nat} {path line : String}
    {rest : List String} {n : Nat} {chunks : List ChunkDraft}
    {buf : List String} {bc s : Nat} (hc : ¬ cc ≤ bc + line.length + 1) :
    chunkLoop cc oc path (line :: rest) n chunks buf bc s =
      chunkLoop cc oc path rest (n + 1) chunks (buf ++ [line])
        (bc + line.length + 1) s := by
  simp only [chunkLoop, if_neg hc]

/-- Unconditional loop invariant: the next start line stays positive and in
step with the buffer, and every emitted chunk has
`1 ≤ start_line ≤ end_line`. -/
theorem chunkLoop_se (cc oc : Nat) (path : String) :
    ∀ (rest : List String) (n : Nat) (acc : List ChunkDraft)
      (buf : List String) (bc s : Nat),
      1 ≤ s → s + buf.length = n →
      (∀ ch ∈ acc, 1 ≤ ch.start_line ∧ ch.start_line ≤ ch.end_line) →
      1 ≤ (chunkLoop cc oc path rest n acc buf bc s).2.2 ∧
      (chunkLoop cc oc path rest n acc buf bc s).2.2 +
        (chunkLoop cc oc path rest n acc buf bc s).2.1.length
        = n + rest.length ∧
      ∀ ch ∈ (chunkLoop cc oc path rest n acc buf bc s).1,
        1 ≤ ch.start_line ∧ ch.start_line ≤ ch.end_line := by
  intro rest
  induction rest with
  | nil =>
    intro n acc buf bc s hs hlen hacc
    rw [chunkLoop]
    exact ⟨hs, by simpa using hlen, hacc⟩
  | cons line rest ih =>
    intro n acc buf bc s hs hlen hacc
    by_cases hc : cc ≤ bc + line.length + 1
    · rw [chunkLoop_cons_cut hc]
      have hoblen : (overlapGo oc (buf ++ [line]).reverse [] 0).1.length
          ≤ buf.length + 1 := by
        have := overlapGo_length_le oc (buf ++ [line]).reverse [] 0
        simpa using this
      have hobne : (overlapGo oc (buf ++ [line]).reverse [] 0).1 ≠ [] :=
        overlapGo_ne_nil oc _ [] 0 (by simp)
      have hoblen1 : 0 < (overlapGo oc (buf ++ [line]).reverse [] 0).1.length :=
        List.length_pos.mpr hobne
      have hacc' : ∀ ch ∈ (if pstrip (joinNL (buf ++ [line])) = "" then acc
          else acc ++ [⟨pstrip (joinNL (buf ++ [line])), path, s, n⟩]),
          1 ≤ ch.start_line ∧ ch.start_line ≤ ch.end_line := by
        split
        · exact hacc
        · intro ch hch
          rcases List.mem_append.mp hch with hch | hch
          · exact hacc ch hch
          · rcases List.mem_singleton.mp hch with rfl
            exact ⟨hs, show s ≤ n by omega⟩
      obtain ⟨ha, hb, hcth⟩ := ih (n + 1)
        (if pstrip (joinNL (buf ++ [line])) = "" then acc
         else acc ++ [⟨pstrip (joinNL (buf ++ [line])), path, s, n⟩])
        (overlapGo oc (buf ++ [line]).reverse [] 0).1
        (overlapGo oc (buf ++ [line]).reverse [] 0).2
        (n + 1 - (overlapGo oc (buf ++ [line]).reverse [] 0).1.length)
        (by omega) (by omega) hacc'
      exact ⟨ha, by simp only [List.length_cons]; omega, hcth⟩
    · rw [chunkLoop_cons_nocut hc]
      obtain ⟨ha, hb, hcth⟩ := ih (n + 1) acc (buf ++ [line])
        (bc + line.length + 1) s hs (by simp only [List.length_append,
          List.length_cons, List.length_nil]; omega) hacc
      exact ⟨ha, by simp only [List.length_cons]; omega, hcth⟩

/-- Main loop invariant, under the hypothesis that every line still to be
consumed (and every buffered line) has a non-whitespace character: the
final buffer is non-empty and whitespace-free, the chunks emitted so far
cover all lines below the final start line, the last chunk reaches at least
one line before the final start line, and consecutive chunks overlap. -/
theorem chunkLoop_main (cc oc : Nat) (path : String) :
    ∀ (rest : List String) (n : Nat) (acc : List ChunkDraft)
      (buf : List String) (bc s : Nat),
      1 ≤ s → s + buf.length = n →
      (∀ l ∈ buf, hasNonWs l) → (∀ l ∈ rest, hasNonWs l) →
      (∀ i, 1 ≤ i → i + 1 ≤ s → covers acc i) →
      (∀ c, acc.getLast? = some c → s ≤ c.end_line) →
      acc.Chain' (fun a b => b.start_line ≤ a.end_line) →
      (∀ l ∈ (chunkLoop cc oc path rest n acc buf bc s).2.1, hasNonWs l) ∧
      ((buf ≠ [] ∨ rest ≠ []) →
        (chunkLoop cc oc path rest n acc buf bc s).2.1 ≠ []) ∧
      (∀ i, 1 ≤ i → i + 1 ≤ (chunkLoop cc oc path rest n acc buf bc s).2.2 →
        covers (chunkLoop cc oc path rest n acc buf bc s).1 i) ∧
      (∀ c, (chunkLoop cc oc path rest n acc buf bc s).1.getLast? = some c →
        (chunkLoop cc oc path rest n acc buf bc s).2.2 ≤ c.end_line) ∧
      (chunkLoop cc oc path rest n acc buf bc s).1.Chain'
        (fun a b => b.start_line ≤ a.end_line) := by
  intro rest
  induction rest with
  | nil =>
    intro n acc buf bc s hs hlen hbuf hrest hcov hlink hchain
    rw [chunkLoop]
    exact ⟨hbuf, fun h => by
        rcases h with h | h
        · exact h
        · exact absurd rfl h,
      hcov, hlink, hchain⟩
  | cons line rest ih =>
    intro n acc buf bc s hs hlen hbuf hrest hcov hlink hchain
    have hline : hasNonWs line := hrest line (List.mem_cons_self _ _)
    have hbuf' : ∀ l ∈ buf ++ [line], hasNonWs l := by
      intro l hl
      rcases List.mem_append.mp hl with hl | hl
      · exact hbuf l hl
      · rcases List.mem_singleton.mp hl with rfl; exact hline
    by_cases hc : cc ≤ bc + line.length + 1
    · rw [chunkLoop_cons_cut hc]
      have ht : pstrip (joinNL (buf ++ [line])) ≠ "" :=
        pstrip_joinNL_ne_empty (List.mem_append_right _ (List.mem_singleton.mpr rfl))
          hline
      rw [if_neg ht]
      have hoblen : (overlapGo oc (buf ++ [line]).reverse [] 0).1.length
          ≤ buf.length + 1 := by
        have := overlapGo_length_le oc (buf ++ [line]).reverse [] 0
        simpa using this
      have hobne : (overlapGo oc (buf ++ [line]).reverse [] 0).1 ≠ [] :=
        overlapGo_ne_nil oc _ [] 0 (by simp)
      have hoblen1 : 0 < (overlapGo oc (buf ++ [line]).reverse [] 0).1.length :=
        List.length_pos.mpr hobne
      have hobmem : ∀ l ∈ (overlapGo oc (buf ++ [line]).reverse [] 0).1,
          hasNonWs l := by
        intro l hl
        rcases overlapGo_mem oc _ [] 0 l hl with hl | hl
        · exact hbuf' l (List.mem_reverse.mp hl)
        · exact absurd hl (List.not_mem_nil _)
      set cnew : ChunkDraft := ⟨pstrip (joinNL (buf ++ [line])), path, s, n⟩
        with hcnew
      have hcov' : ∀ i, 1 ≤ i →
          i + 1 ≤ n + 1 - (overlapGo oc (buf ++ [line]).reverse [] 0).1.length →
          covers (acc ++ [cnew]) i := by
        intro i hi1 hi2
        by_cases his : i + 1 ≤ s
        · obtain ⟨ch, hch, h1, h2⟩ := hcov i hi1 his
          exact ⟨ch, List.mem_append_left _ hch, h1, h2⟩
        · refine ⟨cnew, List.mem_append_right _ (List.mem_singleton.mpr rfl), ?_, ?_⟩
          · simp only [hcnew]; omega
          · simp only [hcnew]; omega
      have hlink' : ∀ c, (acc ++ [cnew]).getLast? = some c →
          n + 1 - (overlapGo oc (buf ++ [line]).reverse [] 0).1.length
            ≤ c.end_line := by
        intro c hcl
        rw [List.getLast?_concat] at hcl
        cases hcl
        simp only [hcnew]
        omega
      have hchain' : (acc ++ [cnew]).Chain'
          (fun a b => b.start_line ≤ a.end_line) := by
        rw [List.chain'_append]
        refine ⟨hchain, List.chain'_singleton _, ?_⟩
        intro x hx y hy
        simp only [List.head?_cons, Option.mem_def, Option.some.injEq] at hy
        subst hy
        simp only [Option.mem_def] at hx
        have := hlink x hx
        simp only [hcnew]
        omega
      obtain ⟨ha, hb, hcth, hdth, heth⟩ := ih (n + 1) (acc ++ [cnew])
        (overlapGo oc (buf ++ [line]).reverse [] 0).1
        (overlapGo oc (buf ++ [line]).reverse [] 0).2
        (n + 1 - (overlapGo oc (buf ++ [line]).reverse [] 0).1.length)
        (by omega) (by omega) hobmem
        (fun l hl => hrest l (List.mem_cons_of_mem _ hl))
        hcov' hlink' hchain'
      exact ⟨ha, fun _ => hb (Or.inl hobne), hcth, hdth, heth⟩
    · rw [chunkLoop_cons_nocut hc]
      obtain ⟨ha, hb, hcth, hdth, heth⟩ := ih (n + 1) acc (buf ++ [line])
        (bc + line.length + 1) s hs
        (by simp only [List.length_append, List.length_cons, List.length_nil]
            omega)
        hbuf' (fun l hl => hrest l (List.mem_cons_of_mem _ hl))
        hcov hlink hchain
      exact ⟨ha, fun _ => hb (Or.inl (by simp)), hcth, hdth, heth⟩

theorem pstrip_empty : pstrip "" = "" := rfl

theorem joinNL_nil : joinNL [] = "" := rfl

/-- Every chunk emitted by `chunk_markdown` has `1 ≤ start_line ≤ end_line`,
for every document and parameter choice. -/
theorem chunk_markdown_se (content path : String) (ct ov : Nat) :
    ∀ ch ∈ chunk_markdown content path ct ov,
      1 ≤ ch.start_line ∧ ch.start_line ≤ ch.end_line := by
  intro ch hch
  simp only [chunk_markdown] at hch
  by_cases he : (splitLines content).isEmpty
  · rw [if_pos he] at hch
    exact absurd hch (List.not_mem_nil _)
  · rw [if_neg he] at hch
    obtain ⟨h1, h2, h3⟩ := chunkLoop_se (ct * CHARS_PER_TOKEN)
      (ov * CHARS_PER_TOKEN) path (splitLines content) 1 [] [] 0 1
      le_rfl (by simp) (by intro ch h; exact absurd h (List.not_mem_nil _))
    set r := chunkLoop (ct * CHARS_PER_TOKEN) (ov * CHARS_PER_TOKEN) path
      (splitLines content) 1 [] [] 0 1 with hr
    by_cases ht : pstrip (joinNL r.2.1) = ""
    · rw [if_pos ht] at hch
      exact h3 ch hch
    · rw [if_neg ht] at hch
      rcases List.mem_append.mp hch with hch | hch
      · exact h3 ch hch
      · rcases List.mem_singleton.mp hch with rfl
        have hne : r.2.1 ≠ [] := by
          intro h0
          rw [h0, joinNL_nil, pstrip_empty] at ht
          exact ht rfl
        have hlen1 : 0 < r.2.1.length := List.length_pos.mpr hne
        refine ⟨h1, ?_⟩
        show r.2.2 ≤ (splitLines content).length
        omega

/-- For a document all of whose lines have a non-whitespace character, the
emitted chunks cover every line and consecutive chunks overlap. -/
theorem chunk_markdown_cover_chain (content path : String) (ct ov : Nat)
    (hws : ∀ l ∈ splitLines content, hasNonWs l) :
    (∀ i, 1 ≤ i → i ≤ (splitLines content).length →
      covers (chunk_markdown content path ct ov) i) ∧
    (chunk_markdown content path ct ov).Chain'
      (fun a b => b.start_line ≤ a.end_line) := by
  simp only [chunk_markdown]
  by_cases he : (splitLines content).isEmpty
  · rw [if_pos he]
    have : (splitLines content).length = 0 := by
      rw [List.isEmpty_iff] at he
      simp [he]
    constructor
    · intro i hi1 hi2; omega
    · exact List.chain'_nil
  · rw [if_neg he]
    have hlne : splitLines content ≠ [] := by
      intro h; rw [h] at he; exact he rfl
    obtain ⟨h1, h2, _⟩ := chunkLoop_se (ct * CHARS_PER_TOKEN)
      (ov * CHARS_PER_TOKEN) path (splitLines content) 1 [] [] 0 1
      le_rfl (by simp) (by intro ch h; exact absurd h (List.not_mem_nil _))
    obtain ⟨ha, hb, hcov, hlink, hchain⟩ := chunkLoop_main (ct * CHARS_PER_TOKEN)
      (ov * CHARS_PER_TOKEN) path (splitLines content) 1 [] [] 0 1
      le_rfl (by simp) (by intro l h; exact absurd h (List.not_mem_nil _)) hws
      (by intro i hi1 hi2; omega)
      (by intro c h; simp at h)
      List.chain'_nil
    set r := chunkLoop (ct * CHARS_PER_TOKEN) (ov * CHARS_PER_TOKEN) path
      (splitLines content) 1 [] [] 0 1 with hr
    have hfne : r.2.1 ≠ [] := hb (Or.inr hlne)
    have hmem : ∃ l, l ∈ r.2.1 := by
      cases hq : r.2.1 with
      | nil => exact absurd hq hfne
      | cons x xs => exact ⟨x, List.mem_cons_self _ _⟩
    obtain ⟨l0, hl0⟩ := hmem
    have ht : pstrip (joinNL r.2.1) ≠ "" :=
      pstrip_joinNL_ne_empty hl0 (ha l0 hl0)
    rw [if_neg ht]
    have hlen1 : 0 < r.2.1.length := List.length_pos.mpr hfne
    constructor
    · intro i hi1 hi2
      by_cases his : i + 1 ≤ r.2.2
      · obtain ⟨ch, hch, hc1, hc2⟩ := hcov i hi1 his
        exact ⟨ch, List.mem_append_left _ hch, hc1, hc2⟩
      · refine ⟨⟨pstrip (joinNL r.2.1), path, r.2.2, (splitLines content).length⟩,
          List.mem_append_right _ (List.mem_singleton.mpr rfl), ?_, ?_⟩
        · show r.2.2 ≤ i; omega
        · exact hi2
    · rw [List.chain'_append]
      refine ⟨hchain, List.chain'_singleton _, ?_⟩
      intro x hx y hy
      simp only [List.head?_cons, Option.mem_def, Option.some.injEq] at hy
      subst hy
      simp only [Option.mem_def] at hx
      have := hlink x hx
      show r.2.2 ≤ x.end_line
      omega

/-! ### Helper lemmas: sync engine -/

theorem foldl_deleteByPath (ps : List String) : ∀ st : List Chunk,
    ps.foldl deleteByPath st
      = st.filter (fun c => !(ps.any (fun q => c.path == q))) := by
  induction ps with
  | nil =>
    intro st
    simp only [List.foldl_nil, List.any_nil, Bool.not_false, List.filter_true]
  | cons p ps ih =>
    intro st
    rw [List.foldl_cons, ih (deleteByPath st p)]
    unfold deleteByPath
    rw [List.filter_filter]
    refine List.filter_congr ?_
    intro c _
    simp only [List.any_cons, Bool.not_or]
    exact Bool.and_comm _ _

theorem mem_foldl_deleteByPath {ps : List String} {st : List Chunk} {c : Chunk} :
    c ∈ ps.foldl deleteByPath st ↔ c ∈ st ∧ ∀ q ∈ ps, ¬ c.path = q := by
  rw [foldl_deleteByPath, List.mem_filter]
  simp

theorem foldl_syncStep_snd (rf : String → Option String) :
    ∀ (fti : List (String × String)) (st acc : List Chunk),
      (fti.foldl (syncStep rf) (st, acc)).2
        = acc ++ fti.flatMap (fileChunks rf) := by
  intro fti
  induction fti with
  | nil => intro st acc; simp
  | cons ph fti ih =>
    intro st acc
    rw [List.foldl_cons]
    cases h : rf ph.1 with
    | none =>
      have hstep : syncStep rf (st, acc) ph = (st, acc) := by
        simp [syncStep, h]
      have hfc : fileChunks rf ph = [] := by
        simp [fileChunks, h]
      rw [hstep, ih st acc, List.flatMap_cons, hfc, List.nil_append]
    | some content =>
      have hstep : syncStep rf (st, acc) ph
          = (deleteByPath st ph.1, acc ++ fileChunks rf ph) := by
        simp [syncStep, h]
      rw [hstep, ih _ _, List.flatMap_cons, List.append_assoc]

theorem foldl_syncStep_fst (rf : String → Option String) :
    ∀ (fti : List (String × String)) (st acc : List Chunk),
      (fti.foldl (syncStep rf) (st, acc)).1
        = st.filter (fun c =>
            !(fti.any (fun ph => (rf ph.1).isSome && (c.path == ph.1)))) := by
  intro fti
  induction fti with
  | nil =>
    intro st acc
    simp only [List.foldl_nil, List.any_nil, Bool.not_false, List.filter_true]
  | cons ph fti ih =>
    intro st acc
    rw [List.foldl_cons]
    cases h : rf ph.1 with
    | none =>
      have hstep : syncStep rf (st, acc) ph = (st, acc) := by
        simp [syncStep, h]
      rw [hstep, ih st acc]
      refine List.filter_congr ?_
      intro c _
      simp [h]
    | some content =>
      have hstep : syncStep rf (st, acc) ph
          = (deleteByPath st ph.1, acc ++ fileChunks rf ph) := by
        simp [syncStep, h]
      rw [hstep, ih _ _]
      unfold deleteByPath
      rw [List.filter_filter]
      refine List.filter_congr ?_
      intro c _
      simp only [List.any_cons, Bool.not_or, h, Option.isSome_some, Bool.true_and]
      exact Bool.and_comm _ _

theorem chunkLoop_path (cc oc : Nat) (path : String) :
    ∀ (rest : List String) (n : Nat) (acc : List ChunkDraft)
      (buf : List String) (bc s : Nat),
      (∀ ch ∈ acc, ch.path = path) →
      ∀ ch ∈ (chunkLoop cc oc path rest n acc buf bc s).1, ch.path = path := by
  intro rest
  induction rest with
  | nil =>
    intro n acc buf bc s hacc
    rw [chunkLoop]
    exact hacc
  | cons line rest ih =>
    intro n acc buf bc s hacc
    by_cases hc : cc ≤ bc + line.length + 1
    · rw [chunkLoop_cons_cut hc]
      refine ih (n + 1) _ _ _ _ ?_
      split
      · exact hacc
      · intro ch hch
        rcases List.mem_append.mp hch with hch | hch
        · exact hacc ch hch
        · rcases List.mem_singleton.mp hch with rfl; rfl
    · rw [chunkLoop_cons_nocut hc]
      exact ih (n + 1) acc _ _ s hacc

theorem chunk_markdown_path (content path : String) (ct ov : Nat) :
    ∀ ch ∈ chunk_markdown content path ct ov, ch.path = path := by
  intro ch hch
  simp only [chunk_markdown] at hch
  by_cases he : (splitLines content).isEmpty
  · rw [if_pos he] at hch
    exact absurd hch (List.not_mem_nil _)
  · rw [if_neg he] at hch
    have hloop := chunkLoop_path (ct * CHARS_PER_TOKEN) (ov * CHARS_PER_TOKEN)
      path (splitLines content) 1 [] [] 0 1
      (by intro ch h; exact absurd h (List.not_mem_nil _))
    by_cases ht : pstrip (joinNL (chunkLoop (ct * CHARS_PER_TOKEN)
        (ov * CHARS_PER_TOKEN) path (splitLines content) 1 [] [] 0 1).2.1) = ""
    · rw [if_pos ht] at hch
      exact hloop ch hch
    · rw [if_neg ht] at hch
      rcases List.mem_append.mp hch with hch | hch
      · exact hloop ch hch
      · rcases List.mem_singleton.mp hch with rfl; rfl

theorem fileChunks_path {rf : String → Option String} {ph : String × String}
    {c : Chunk} (hc : c ∈ fileChunks rf ph) :
    c.path = ph.1 ∧ c.doc_hash = ph.2 := by
  unfold fileChunks at hc
  cases h : rf ph.1 with
  | none => rw [h] at hc; exact absurd hc (List.not_mem_nil _)
  | some content =>
    rw [h] at hc
    obtain ⟨ic, hic, rfl⟩ := List.mem_map.mp hc
    refine ⟨?_, rfl⟩
    have hdraft : ic.2 ∈ chunk_markdown content ph.1 CHUNK_TOKENS CHUNK_OVERLAP :=
      List.snd_mem_of_mem_enum hic
    exact chunk_markdown_path content ph.1 _ _ ic.2 hdraft

theorem filesToIndex_mem {store : List Chunk} {cf : List (String × FileMeta)}
    {ph : String × String} (h : ph ∈ filesToIndex store cf) :
    ∃ pm ∈ cf, ph.1 = pm.1 ∧ ph.2 = metaHash pm.2 := by
  simp only [filesToIndex] at h
  obtain ⟨pm, hpm, heq⟩ := List.mem_filterMap.mp h
  refine ⟨pm, hpm, ?_⟩
  revert heq
  cases hl : indexedLookup store pm.1 with
  | none =>
    intro heq
    simp only [Option.some.injEq] at heq
    rw [← heq]
    exact ⟨rfl, rfl⟩
  | some h0 =>
    intro heq
    change (if h0 = metaHash pm.2 then none
      else some (pm.1, metaHash pm.2)) = some ph at heq
    by_cases he : h0 = metaHash pm.2
    · rw [if_pos he] at heq
      exact absurd heq (by simp)
    · rw [if_neg he] at heq
      simp only [Option.some.injEq] at heq
      rw [← heq]
      exact ⟨rfl, rfl⟩

theorem filesToDelete_mem {store : List Chunk} {cf : List (String × FileMeta)}
    {p : String} :
    p ∈ filesToDelete store cf ↔
      (∃ c ∈ store, c.path = p) ∧ ∀ pm ∈ cf, ¬ pm.1 = p := by
  simp only [filesToDelete, List.mem_filter, List.mem_dedup, List.mem_map,
    Bool.not_eq_true', List.any_eq_false, beq_iff_eq]

theorem isEmpty_false_of_ne_nil {α : Type} {l : List α} (h : l ≠ []) :
    l.isEmpty = false := by
  cases l with
  | nil => exact absurd rfl h
  | cons a l => rfl

/-! ### Claim C2 -/

/-- Claim C2 counterexample: with an *empty* current document set,
`cmd_sync` returns `{indexed: 0, deleted: 0, unchanged: 0}` before the diff
is even computed, and a recorded path absent from the (empty) current set
keeps all its chunks. -/
theorem C2_counterexample :
    (cmd_sync true true
        [⟨"gone text", "/default-user/memory/gone.md", "memory", 1, 1, "0:9",
          "/default-user/memory/gone.md::0"⟩]
        [] (fun _ => none)).store.filter
      (fun c => c.path == "/default-user/memory/gone.md")
      = [⟨"gone text", "/default-user/memory/gone.md", "memory", 1, 1, "0:9",
          "/default-user/memory/gone.md::0"⟩] ∧
    (cmd_sync true true
        [⟨"gone text", "/default-user/memory/gone.md", "memory", 1, 1, "0:9",
          "/default-user/memory/gone.md::0"⟩]
        [] (fun _ => none)).outcome = .ok 0 0 0 none := by
  exact ⟨by decide, by decide⟩

/-- Claim C2 (amended): for every path recorded in the index store but
absent from the current set of documents, `cmd_sync` with an API key leaves
zero chunks with that path — for every *non-empty* current document set
(the empty set early-returns without deleting), regardless of read failures
and of whether the embedding call succeeds. -/
theorem C2_thm (embedOk : Bool) (store : List Chunk)
    (currentFiles : List (String × FileMeta))
    (readFile : String → Option String) (p : String)
    (hne : currentFiles ≠ [])
    (hrec : ∃ c ∈ store, c.path = p)
    (habs : ∀ pm ∈ currentFiles, ¬ pm.1 = p) :
    (cmd_sync true embedOk store currentFiles readFile).store.filter
      (fun c => c.path == p) = [] := by
  have hpd : p ∈ filesToDelete store currentFiles :=
    filesToDelete_mem.mpr ⟨hrec, habs⟩
  have h1 : currentFiles.isEmpty = false := isEmpty_false_of_ne_nil hne
  have h2 : ¬((filesToIndex store currentFiles).isEmpty = true ∧
      (filesToDelete store currentFiles).isEmpty = true) := by
    rintro ⟨-, hd⟩
    rw [List.isEmpty_iff] at hd
    rw [hd] at hpd
    exact absurd hpd (List.not_mem_nil _)
  have hr1 : (((filesToIndex store currentFiles).foldl (syncStep readFile)
      ((filesToDelete store currentFiles).foldl deleteByPath store, [])).1).filter
      (fun c => c.path == p) = [] := by
    rw [List.filter_eq_nil_iff]
    intro c hc
    rw [foldl_syncStep_fst] at hc
    have hc1 := (List.mem_filter.mp hc).1
    obtain ⟨-, hall⟩ := mem_foldl_deleteByPath.mp hc1
    simpa using hall p hpd
  have hr2 : (((filesToIndex store currentFiles).foldl (syncStep readFile)
      ((filesToDelete store currentFiles).foldl deleteByPath store, [])).2).filter
      (fun c => c.path == p) = [] := by
    rw [List.filter_eq_nil_iff]
    intro c hc
    rw [foldl_syncStep_snd, List.nil_append] at hc
    obtain ⟨ph, hph, hcph⟩ := List.mem_flatMap.mp hc
    obtain ⟨hpath, -⟩ := fileChunks_path hcph
    obtain ⟨pm, hpm, hp1, -⟩ := filesToIndex_mem hph
    have : ¬ pm.1 = p := habs pm hpm
    simp only [beq_iff_eq, hpath, hp1]
    exact this
  simp only [cmd_sync]
  rw [if_neg (show ¬(true = false) by decide), if_neg (by simp [h1]),
    if_neg h2]
  split
  · exact hr1
  · split
    · rw [List.filter_append, hr1, hr2]
      rfl
    · exact hr1

/-- Claim C2 witness. -/
theorem C2_witness :
    (([("/default-user/memory/keep.md", (⟨5, 3⟩ : FileMeta))] :
        List (String × FileMeta)) ≠ [] ∧
      (∃ c ∈ [(⟨"gone text", "/default-user/memory/gone.md", "memory", 1, 1,
          "0:9", "/default-user/memory/gone.md::0"⟩ : Chunk)],
        c.path = "/default-user/memory/gone.md") ∧
      (∀ pm ∈ [("/default-user/memory/keep.md", (⟨5, 3⟩ : FileMeta))],
        ¬ pm.1 = "/default-user/memory/gone.md")) ∧
    (cmd_sync true true
        [⟨"gone text", "/default-user/memory/gone.md", "memory", 1, 1, "0:9",
          "/default-user/memory/gone.md::0"⟩]
        [("/default-user/memory/keep.md", ⟨5, 3⟩)]
        (fun _ => none)).store.filter
      (fun c => c.path == "/default-user/memory/gone.md") = [] :=
  ⟨⟨by decide, by decide, by decide⟩,
    C2_thm true
      [⟨"gone text", "/default-user/memory/gone.md", "memory", 1, 1, "0:9",
        "/default-user/memory/gone.md::0"⟩]
      [("/default-user/memory/keep.md", ⟨5, 3⟩)]
      (fun _ => none) "/default-user/memory/gone.md"
      (by decide) (by decide) (by decide)⟩

/-! ### Claim C1 -/

/-- Claim C1 counterexample: with the embedding provider failing
(`embedOk = false`), one stale recorded file and one new readable file, the
sync deletes the stale file's chunk *before* the failing `table.add`, then
the exception propagates: the store is left mutated (empty, the old chunk
gone) and no error status is returned — contradicting "the index store is
left exactly as before the call". -/
theorem C1_counterexample :
    cmd_sync true false
        [⟨"old text", "/default-user/memory/old.md", "memory", 1, 1, "0:8",
          "/default-user/memory/old.md::0"⟩]
        [("/default-user/memory/new.md", ⟨1, 5⟩)]
        (fun p => if p = "/default-user/memory/new.md" then some "hello"
                  else none)
      = ⟨.raised, [], 0⟩ ∧
    ([] : List Chunk)
      ≠ [⟨"old text", "/default-user/memory/old.md", "memory", 1, 1, "0:8",
          "/default-user/memory/old.md::0"⟩] := ⟨by decide, by decide⟩

/-- Claim C1 (amended): if no API key is configured, `cmd_sync` aborts with
an error status and an untouched store before doing any work; if a key is
present but the embedding call fails, nothing is embedded and no chunk is
inserted — the resulting store is a sublist of the original (deletions of
removed and changed documents already performed persist, and the failure
surfaces as a propagated exception, not an error status). -/
theorem C1_thm (store : List Chunk)
    (currentFiles : List (String × FileMeta))
    (readFile : String → Option String) :
    (∀ embedOk, cmd_sync false embedOk store currentFiles readFile
        = ⟨.errorNoKey, store, 0⟩) ∧
    (cmd_sync true false store currentFiles readFile).embedded = 0 ∧
    (cmd_sync true false store currentFiles readFile).store.Sublist store := by
  refine ⟨fun embedOk => rfl, ?_⟩
  simp only [cmd_sync]
  rw [if_neg (show ¬(true = false) by decide)]
  by_cases h1 : currentFiles.isEmpty
  · rw [if_pos h1]
    exact ⟨rfl, List.Sublist.refl store⟩
  · rw [if_neg h1]
    by_cases h2 : (filesToIndex store currentFiles).isEmpty = true ∧
        (filesToDelete store currentFiles).isEmpty = true
    · rw [if_pos h2]
      exact ⟨rfl, List.Sublist.refl store⟩
    · rw [if_neg h2]
      have hsub : (((filesToIndex store currentFiles).foldl
          (syncStep readFile)
          ((filesToDelete store currentFiles).foldl deleteByPath store,
            [])).1).Sublist store := by
        rw [foldl_syncStep_fst, foldl_deleteByPath]
        exact (List.filter_sublist _).trans (List.filter_sublist _)
      by_cases h3 : (((filesToIndex store currentFiles).foldl
          (syncStep readFile)
          ((filesToDelete store currentFiles).foldl deleteByPath store,
            [])).2).isEmpty
      · rw [if_pos h3]
        exact ⟨rfl, hsub⟩
      · rw [if_neg h3, if_neg (show ¬(false = true) by decide)]
        exact ⟨rfl, hsub⟩

/-! ### Claim C4 -/

/-- Claim C4 counterexample: a batch consisting of a single unreadable file
is skipped (zero chunks added), yet the returned JSON is
`{indexed: 1, deleted: 0, unchanged: 0, chunks: 0}` — the skipped document
*is* counted in the indexed count, contradicting "counted neither in the
returned indexed count nor in the returned deleted count". -/
theorem C4_counterexample :
    (cmd_sync true true []
        [("/default-user/memory/bad.md", ⟨1, 1⟩)] (fun _ => none)).outcome
      = .ok 1 0 0 (some 0) ∧
    (SyncOutcome.ok 1 0 0 (some 0)).indexedCount ≠ some 0 :=
  ⟨by decide, by decide⟩

/-- Claim C4 (amended): when reading a document fails during sync, that
document alone is skipped — its stored chunks are left exactly as they were
and no new chunks are inserted for it — the rest of the batch proceeds, and
the skipped document is not counted in the deleted count, but it *is*
included in the returned indexed count (`len(files_to_index)`).  The
concrete two-file conjunct exhibits the rest of the batch proceeding:
the unreadable file contributes no chunks, the readable one is chunked and
embedded, and the result reports `indexed = 2, deleted = 0, chunks = 1`. -/
theorem C4_thm (embedOk : Bool) (store : List Chunk)
    (currentFiles : List (String × FileMeta))
    (readFile : String → Option String) (p : String)
    (hp : ∃ pm ∈ currentFiles, pm.1 = p)
    (hr : readFile p = none) :
    (cmd_sync true embedOk store currentFiles readFile).store.filter
        (fun c => c.path == p)
      = store.filter (fun c => c.path == p) ∧
    cmd_sync true true []
        [("/default-user/memory/bad.md", ⟨1, 1⟩),
         ("/default-user/memory/good.md", ⟨2, 6⟩)]
        (fun q => if q = "/default-user/memory/good.md" then some "hello"
                  else none)
      = ⟨.ok 2 0 0 (some 1),
         [⟨"hello", "/default-user/memory/good.md", "memory", 1, 1, "2:6",
           "/default-user/memory/good.md::0"⟩], 1⟩ := by
  refine ⟨?_, by decide⟩
  obtain ⟨pm0, hpm0, hpm0p⟩ := hp
  have hfilt1 : (((filesToIndex store currentFiles).foldl
      (syncStep readFile)
      ((filesToDelete store currentFiles).foldl deleteByPath store,
        [])).1).filter (fun c => c.path == p)
      = store.filter (fun c => c.path == p) := by
    rw [foldl_syncStep_fst, foldl_deleteByPath, List.filter_filter,
      List.filter_filter]
    refine List.filter_congr ?_
    intro c _
    by_cases hcp : c.path = p
    · have h_ftd : ((filesToDelete store currentFiles).any
          (fun q => c.path == q)) = false := by
        rw [List.any_eq_false]
        intro q hq
        simp only [beq_iff_eq, hcp]
        intro hpq
        obtain ⟨-, hnone⟩ := filesToDelete_mem.mp hq
        exact hnone pm0 hpm0 (hpm0p.trans hpq)
      have h_fti : ((filesToIndex store currentFiles).any
          (fun ph => (readFile ph.1).isSome && (c.path == ph.1))) = false := by
        rw [List.any_eq_false]
        intro ph hph
        by_cases hphp : ph.1 = p
        · simp [hphp, hr]
        · have hne : ¬ c.path = ph.1 := by
            rw [hcp]; exact fun h => hphp h.symm
          simp [hne]
      rw [h_ftd, h_fti]
      simp
    · rw [show (c.path == p) = false from beq_eq_false_iff_ne.mpr hcp]
      simp
  have hfilt2 : (((filesToIndex store currentFiles).foldl
      (syncStep readFile)
      ((filesToDelete store currentFiles).foldl deleteByPath store,
        [])).2).filter (fun c => c.path == p) = [] := by
    rw [foldl_syncStep_snd, List.nil_append, List.filter_eq_nil_iff]
    intro c hc
    obtain ⟨ph, hph, hcph⟩ := List.mem_flatMap.mp hc
    by_cases hphp : ph.1 = p
    · have : fileChunks readFile ph = [] := by
        unfold fileChunks
        rw [hphp, hr]
      rw [this] at hcph
      exact absurd hcph (List.not_mem_nil _)
    · obtain ⟨hpath, -⟩ := fileChunks_path hcph
      simp only [beq_iff_eq, hpath]
      exact hphp
  simp only [cmd_sync]
  rw [if_neg (show ¬(true = false) by decide)]
  by_cases h1 : currentFiles.isEmpty
  · rw [if_pos h1]
  · rw [if_neg h1]
    by_cases h2 : (filesToIndex store currentFiles).isEmpty = true ∧
        (filesToDelete store currentFiles).isEmpty = true
    · rw [if_pos h2]
    · rw [if_neg h2]
      split
      · exact hfilt1
      · split
        · rw [List.filter_append, hfilt1, hfilt2, List.append_nil]
        · exact hfilt1

/-- Claim C4 witness. -/
theorem C4_witness :
    ((∃ pm ∈ [("/default-user/memory/bad.md", (⟨1, 1⟩ : FileMeta)),
        ("/default-user/memory/good.md", (⟨2, 6⟩ : FileMeta))],
        pm.1 = "/default-user/memory/bad.md") ∧
      (fun q => if q = "/default-user/memory/good.md"
          then some "hello" else none) "/default-user/memory/bad.md"
        = (none : Option String)) ∧
    (cmd_sync true true
        [⟨"stale", "/default-user/memory/bad.md", "memory", 1, 1, "9:9",
          "/default-user/memory/bad.md::0"⟩]
        [("/default-user/memory/bad.md", ⟨1, 1⟩),
         ("/default-user/memory/good.md", ⟨2, 6⟩)]
        (fun q => if q = "/default-user/memory/good.md" then some "hello"
                  else none)).store.filter
      (fun c => c.path == "/default-user/memory/bad.md")
      = [⟨"stale", "/default-user/memory/bad.md", "memory", 1, 1, "9:9",
          "/default-user/memory/bad.md::0"⟩].filter
        (fun c => c.path == "/default-user/memory/bad.md") :=
  ⟨⟨by decide, by decide⟩,
    (C4_thm true
      [⟨"stale", "/default-user/memory/bad.md", "memory", 1, 1, "9:9",
        "/default-user/memory/bad.md::0"⟩]
      [("/default-user/memory/bad.md", ⟨1, 1⟩),
       ("/default-user/memory/good.md", ⟨2, 6⟩)]
      (fun q => if q = "/default-user/memory/good.md" then some "hello"
                else none)
      "/default-user/memory/bad.md"
      ⟨("/default-user/memory/bad.md", ⟨1, 1⟩), by decide, rfl⟩
      (by decide)).1⟩

/-! ### Helper lemmas towards idempotence (claim C3) -/

theorem filesToIndex_eq_nil {store : List Chunk} {cf : List (String × FileMeta)}
    (h : ∀ pm ∈ cf, indexedLookup store pm.1 = some (metaHash pm.2)) :
    filesToIndex store cf = [] := by
  simp only [filesToIndex]
  rw [List.filterMap_eq_nil_iff]
  intro pm hpm
  rw [h pm hpm]
  change (if metaHash pm.2 = metaHash pm.2 then none
    else some (pm.1, metaHash pm.2)) = none
  rw [if_pos rfl]

theorem filesToIndex_nil_lookup {store : List Chunk}
    {cf : List (String × FileMeta)} (h : filesToIndex store cf = []) :
    ∀ pm ∈ cf, indexedLookup store pm.1 = some (metaHash pm.2) := by
  intro pm hpm
  have h2 : (match indexedLookup store pm.1 with
      | none => some (pm.1, metaHash pm.2)
      | some h0 => if h0 = metaHash pm.2 then none
                   else some (pm.1, metaHash pm.2)) = none :=
    List.filterMap_eq_nil_iff.mp h pm hpm
  revert h2
  cases hl : indexedLookup store pm.1 with
  | none =>
    intro h2
    exact absurd h2 (by simp)
  | some h0 =>
    intro h2
    change (if h0 = metaHash pm.2 then none
      else some (pm.1, metaHash pm.2)) = none at h2
    by_cases he : h0 = metaHash pm.2
    · rw [he]
    · rw [if_neg he] at h2
      exact absurd h2 (by simp)

theorem filesToDelete_eq_nil {store : List Chunk} {cf : List (String × FileMeta)}
    (h : ∀ c ∈ store, ∃ pm ∈ cf, pm.1 = c.path) :
    filesToDelete store cf = [] := by
  rw [List.eq_nil_iff_forall_not_mem]
  intro p hp
  obtain ⟨⟨c, hc, rfl⟩, hnone⟩ := filesToDelete_mem.mp hp
  obtain ⟨pm, hpm, hpmc⟩ := h c hc
  exact hnone pm hpm hpmc

theorem filesToDelete_nil_paths {store : List Chunk}
    {cf : List (String × FileMeta)} (h : filesToDelete store cf = []) :
    ∀ c ∈ store, ∃ pm ∈ cf, pm.1 = c.path := by
  intro c hc
  by_contra hno
  push_neg at hno
  have : c.path ∈ filesToDelete store cf :=
    filesToDelete_mem.mpr ⟨⟨c, hc, rfl⟩, hno⟩
  rw [h] at this
  exact absurd this (List.not_mem_nil _)

theorem filesToIndex_mem_strong {store : List Chunk}
    {cf : List (String × FileMeta)} {ph : String × String}
    (h : ph ∈ filesToIndex store cf) :
    ∃ pm ∈ cf, ph.1 = pm.1 ∧ ph.2 = metaHash pm.2 ∧
      ¬ indexedLookup store pm.1 = some (metaHash pm.2) := by
  simp only [filesToIndex] at h
  obtain ⟨pm, hpm, heq⟩ := List.mem_filterMap.mp h
  refine ⟨pm, hpm, ?_⟩
  revert heq
  cases hl : indexedLookup store pm.1 with
  | none =>
    intro heq
    simp only [Option.some.injEq] at heq
    rw [← heq]
    exact ⟨rfl, rfl, by simp⟩
  | some h0 =>
    intro heq
    change (if h0 = metaHash pm.2 then none
      else some (pm.1, metaHash pm.2)) = some ph at heq
    by_cases he : h0 = metaHash pm.2
    · rw [if_pos he] at heq
      exact absurd heq (by simp)
    · rw [if_neg he] at heq
      simp only [Option.some.injEq] at heq
      rw [← heq]
      exact ⟨rfl, rfl, by simp [he]⟩

theorem filesToIndex_cases (store : List Chunk) {cf : List (String × FileMeta)}
    {pm : String × FileMeta} (hpm : pm ∈ cf) :
    (pm.1, metaHash pm.2) ∈ filesToIndex store cf ∨
      indexedLookup store pm.1 = some (metaHash pm.2) := by
  by_cases hl : indexedLookup store pm.1 = some (metaHash pm.2)
  · exact Or.inr hl
  · left
    simp only [filesToIndex]
    refine List.mem_filterMap.mpr ⟨pm, hpm, ?_⟩
    cases hl2 : indexedLookup store pm.1 with
    | none => rfl
    | some h0 =>
      have he : ¬ h0 = metaHash pm.2 := fun he => hl (by rw [hl2, he])
      change (if h0 = metaHash pm.2 then none
        else some (pm.1, metaHash pm.2)) = some (pm.1, metaHash pm.2)
      rw [if_neg he]

theorem map_fst_filterMap_sublist {α β γ : Type} (f : α → Option β)
    (g : α → γ) (gb : β → γ) (hf : ∀ a b, f a = some b → gb b = g a) :
    ∀ l : List α, ((l.filterMap f).map gb).Sublist (l.map g) := by
  intro l
  induction l with
  | nil => simp
  | cons a l ih =>
    rw [List.filterMap_cons]
    cases hfa : f a with
    | none =>
      simp only [List.map_cons]
      exact ih.cons _
    | some b =>
      simp only [List.map_cons]
      rw [hf a b hfa]
      exact List.Sublist.cons₂ _ ih

theorem filesToIndex_fst_sublist (store : List Chunk)
    (cf : List (String × FileMeta)) :
    ((filesToIndex store cf).map Prod.fst).Sublist (cf.map Prod.fst) := by
  refine map_fst_filterMap_sublist _ _ _ ?_ cf
  intro pm b hfb
  revert hfb
  cases hl : indexedLookup store pm.1 with
  | none =>
    intro hfb
    simp only [Option.some.injEq] at hfb
    rw [← hfb]
  | some h0 =>
    intro hfb
    change (if h0 = metaHash pm.2 then none
      else some (pm.1, metaHash pm.2)) = some b at hfb
    by_cases he : h0 = metaHash pm.2
    · rw [if_pos he] at hfb
      exact absurd hfb (by simp)
    · rw [if_neg he] at hfb
      simp only [Option.some.injEq] at hfb
      rw [← hfb]

theorem fileChunks_ne_nil {rf : String → Option String} {p hsh content : String}
    (hc : rf p = some content)
    (hne : chunk_markdown content p CHUNK_TOKENS CHUNK_OVERLAP ≠ []) :
    fileChunks rf (p, hsh) ≠ [] := by
  unfold fileChunks
  rw [show rf (p, hsh).1 = some content from hc]
  intro h0
  apply hne
  have hlen := congrArg List.length h0
  simp only [List.length_map, List.enum_length, List.length_nil] at hlen
  exact List.length_eq_zero.mp hlen

theorem indexedLookup_of_filter {store : List Chunk} {p hsh : String}
    (hne : store.filter (fun c => c.path == p) ≠ [])
    (hall : ∀ c ∈ store.filter (fun c => c.path == p), c.doc_hash = hsh) :
    indexedLookup store p = some hsh := by
  unfold indexedLookup
  rw [List.getLast?_eq_getLast _ hne]
  show some ((store.filter (fun c => c.path == p)).getLast hne).doc_hash
    = some hsh
  rw [hall _ (List.getLast_mem hne)]

theorem flatMap_fileChunks_filter_nil {rf : String → Option String} {p : String}
    {fti : List (String × String)} (hp : ∀ ph ∈ fti, ¬ ph.1 = p) :
    (fti.flatMap (fileChunks rf)).filter (fun c => c.path == p) = [] := by
  rw [List.filter_eq_nil_iff]
  intro c hc
  obtain ⟨ph, hph, hcph⟩ := List.mem_flatMap.mp hc
  obtain ⟨hpath, -⟩ := fileChunks_path hcph
  simp only [beq_iff_eq, hpath]
  exact hp ph hph

theorem flatMap_fileChunks_filter {rf : String → Option String} {p hsh : String} :
    ∀ {fti : List (String × String)}, (p, hsh) ∈ fti →
      ((fti.map Prod.fst).Nodup) →
      (fti.flatMap (fileChunks rf)).filter (fun c => c.path == p)
        = fileChunks rf (p, hsh) := by
  intro fti
  induction fti with
  | nil => intro h; exact absurd h (List.not_mem_nil _)
  | cons ph fti ih =>
    intro hmem hnd
    rw [List.flatMap_cons, List.filter_append]
    simp only [List.map_cons, List.nodup_cons] at hnd
    rcases List.mem_cons.mp hmem with rfl | hmem2
    · have h1 : (fileChunks rf (p, hsh)).filter (fun c => c.path == p)
          = fileChunks rf (p, hsh) := by
        rw [List.filter_eq_self]
        intro c hc
        obtain ⟨hpath, -⟩ := fileChunks_path hc
        simp [hpath]
      have h2 : (fti.flatMap (fileChunks rf)).filter (fun c => c.path == p)
          = [] := by
        refine flatMap_fileChunks_filter_nil ?_
        intro ph' hph' hp'
        have hm : ph'.1 ∈ fti.map Prod.fst := List.mem_map_of_mem _ hph'
        rw [hp'] at hm
        exact hnd.1 hm
      rw [h1, h2, List.append_nil]
    · have hphp : ¬ ph.1 = p := by
        intro hphp
        have hm : (p, hsh).1 ∈ fti.map Prod.fst := List.mem_map_of_mem _ hmem2
        rw [show ((p, hsh).1 : String) = p from rfl, ← hphp] at hm
        exact hnd.1 hm
      have h1 : (fileChunks rf ph).filter (fun c => c.path == p) = [] := by
        rw [List.filter_eq_nil_iff]
        intro c hc
        obtain ⟨hpath, -⟩ := fileChunks_path hc
        simp only [beq_iff_eq, hpath]
        exact hphp
      rw [h1, List.nil_append]
      exact ih hmem2 hnd.2

/-- Post-state of a successful `cmd_sync` (API key present, embedding up)
over a non-empty current file set with unique paths, when every current
document is readable and chunks to a non-empty list: every current file's
recorded fingerprint matches its metadata hash, and every stored chunk
belongs to a current file. -/
theorem cmd_sync_post (store : List Chunk) (cf : List (String × FileMeta))
    (rf : String → Option String) (hcf : cf ≠ [])
    (hnd : (cf.map Prod.fst).Nodup)
    (hread : ∀ pm ∈ cf, ∃ content, rf pm.1 = some content ∧
      chunk_markdown content pm.1 CHUNK_TOKENS CHUNK_OVERLAP ≠ []) :
    (∀ pm ∈ cf, indexedLookup (cmd_sync true true store cf rf).store pm.1
        = some (metaHash pm.2)) ∧
    (∀ c ∈ (cmd_sync true true store cf rf).store,
      ∃ pm ∈ cf, pm.1 = c.path) := by
  have h1 : cf.isEmpty = false := isEmpty_false_of_ne_nil hcf
  have hftind : ((filesToIndex store cf).map Prod.fst).Nodup :=
    List.Nodup.sublist (filesToIndex_fst_sublist store cf) hnd
  by_cases h2 : (filesToIndex store cf).isEmpty = true ∧
      (filesToDelete store cf).isEmpty = true
  · have hst : (cmd_sync true true store cf rf).store = store := by
      simp only [cmd_sync]
      rw [if_neg (show ¬(true = false) by decide), if_neg (by simp [h1]),
        if_pos h2]
    rw [hst]
    exact ⟨filesToIndex_nil_lookup (List.isEmpty_iff.mp h2.1),
      filesToDelete_nil_paths (List.isEmpty_iff.mp h2.2)⟩
  · have hst : (cmd_sync true true store cf rf).store
        = ((store.filter (fun c =>
              !((filesToDelete store cf).any (fun q => c.path == q)))).filter
            (fun c => !((filesToIndex store cf).any
              (fun ph => (rf ph.1).isSome && (c.path == ph.1)))))
          ++ (filesToIndex store cf).flatMap (fileChunks rf) := by
      have hr1 : ((filesToIndex store cf).foldl (syncStep rf)
            ((filesToDelete store cf).foldl deleteByPath store, [])).1
          = (store.filter (fun c =>
              !((filesToDelete store cf).any (fun q => c.path == q)))).filter
            (fun c => !((filesToIndex store cf).any
              (fun ph => (rf ph.1).isSome && (c.path == ph.1)))) := by
        rw [foldl_syncStep_fst, foldl_deleteByPath]
      have hr2 : ((filesToIndex store cf).foldl (syncStep rf)
            ((filesToDelete store cf).foldl deleteByPath store, [])).2
          = (filesToIndex store cf).flatMap (fileChunks rf) := by
        rw [foldl_syncStep_snd, List.nil_append]
      simp only [cmd_sync]
      rw [if_neg (show ¬(true = false) by decide), if_neg (by simp [h1]),
        if_neg h2]
      by_cases h3 : (((filesToIndex store cf).foldl (syncStep rf)
          ((filesToDelete store cf).foldl deleteByPath store, [])).2).isEmpty
      · rw [if_pos h3]
        show ((filesToIndex store cf).foldl (syncStep rf)
            ((filesToDelete store cf).foldl deleteByPath store, [])).1 = _
        rw [hr1, ← hr2, List.isEmpty_iff.mp h3, List.append_nil]
      · rw [if_neg h3, if_pos trivial]
        show ((filesToIndex store cf).foldl (syncStep rf)
              ((filesToDelete store cf).foldl deleteByPath store, [])).1
            ++ ((filesToIndex store cf).foldl (syncStep rf)
              ((filesToDelete store cf).foldl deleteByPath store, [])).2 = _
        rw [hr1, hr2]
    rw [hst]
    constructor
    · intro pm hpm
      rcases filesToIndex_cases store hpm with hin | hmatch
      · -- pm gets re-indexed: its chunks afterwards are exactly fileChunks
        obtain ⟨content, hrfc, hchne⟩ := hread pm hpm
        have hA : ((store.filter (fun c =>
              !((filesToDelete store cf).any (fun q => c.path == q)))).filter
            (fun c => !((filesToIndex store cf).any
              (fun ph => (rf ph.1).isSome && (c.path == ph.1))))).filter
            (fun c => c.path == pm.1) = [] := by
          rw [List.filter_eq_nil_iff]
          intro c hc
          obtain ⟨-, hg⟩ := List.mem_filter.mp hc
          simp only [beq_iff_eq]
          intro hcp
          rw [Bool.not_eq_true', List.any_eq_false] at hg
          refine hg (pm.1, metaHash pm.2) hin ?_
          show ((rf pm.1).isSome && (c.path == pm.1)) = true
          rw [hrfc, hcp]
          simp
        have hB : ((filesToIndex store cf).flatMap (fileChunks rf)).filter
            (fun c => c.path == pm.1) = fileChunks rf (pm.1, metaHash pm.2) :=
          flatMap_fileChunks_filter hin hftind
        refine indexedLookup_of_filter ?_ ?_
        · rw [List.filter_append, hA, hB, List.nil_append]
          exact fileChunks_ne_nil hrfc hchne
        · intro c hc
          rw [List.filter_append, hA, hB, List.nil_append] at hc
          exact (fileChunks_path hc).2
      · -- pm unchanged: its chunks afterwards are exactly the old ones
        have hnofti : ∀ ph ∈ filesToIndex store cf, ¬ ph.1 = pm.1 := by
          intro ph hph hp1
          obtain ⟨pm', hpm', hfst, -, hmismatch⟩ := filesToIndex_mem_strong hph
          have heq : pm' = pm := by
            refine List.inj_on_of_nodup_map hnd hpm' hpm ?_
            rw [← hfst, hp1]
          rw [heq] at hmismatch
          exact hmismatch hmatch
        have hB : ((filesToIndex store cf).flatMap (fileChunks rf)).filter
            (fun c => c.path == pm.1) = [] :=
          flatMap_fileChunks_filter_nil hnofti
        have hA : ((store.filter (fun c =>
              !((filesToDelete store cf).any (fun q => c.path == q)))).filter
            (fun c => !((filesToIndex store cf).any
              (fun ph => (rf ph.1).isSome && (c.path == ph.1))))).filter
            (fun c => c.path == pm.1)
            = store.filter (fun c => c.path == pm.1) := by
          rw [List.filter_filter, List.filter_filter]
          refine List.filter_congr ?_
          intro c _
          by_cases hcp : c.path = pm.1
          · have hgtrue : ((filesToIndex store cf).any
                (fun ph => (rf ph.1).isSome && (c.path == ph.1))) = false := by
              rw [List.any_eq_false]
              intro ph hph
              have hne2 : ¬ c.path = ph.1 := by
                rw [hcp]
                exact fun hh => hnofti ph hph hh.symm
              simp [hne2]
            have hdtrue : ((filesToDelete store cf).any
                (fun q => c.path == q)) = false := by
              rw [List.any_eq_false]
              intro q hq
              simp only [beq_iff_eq, hcp]
              intro hpq
              obtain ⟨-, hnone⟩ := filesToDelete_mem.mp hq
              exact hnone pm hpm hpq
            rw [hgtrue, hdtrue]
            simp
          · rw [show (c.path == pm.1) = false from beq_eq_false_iff_ne.mpr hcp]
            simp
        show indexedLookup _ pm.1 = _
        unfold indexedLookup
        rw [List.filter_append, hA, hB, List.append_nil]
        exact hmatch
    · intro c hc
      rcases List.mem_append.mp hc with hc | hc
      · obtain ⟨hc1, -⟩ := List.mem_filter.mp hc
        obtain ⟨hc2, hnotd⟩ := List.mem_filter.mp hc1
        by_contra hno
        push_neg at hno
        have hmem : c.path ∈ filesToDelete store cf :=
          filesToDelete_mem.mpr ⟨⟨c, hc2, rfl⟩, fun pm hpm => hno pm hpm⟩
        rw [Bool.not_eq_true', List.any_eq_false] at hnotd
        exact hnotd c.path hmem (by simp)
      · obtain ⟨ph, hph, hcph⟩ := List.mem_flatMap.mp hc
        obtain ⟨pm', hpm', hfst, -⟩ := filesToIndex_mem hph
        obtain ⟨hpath, -⟩ := fileChunks_path hcph
        refine ⟨pm', hpm', ?_⟩
        rw [← hfst, ← hpath]

/-! ### Claim C3 -/

/-- Claim C3 counterexample: a whitespace-only document produces zero
chunks, so its path is never recorded in the table and the file is
re-listed in `files_to_index` on *every* sync: the second call with no
document changes reports `indexed = 1`, not `indexed = 0`.  (The chunk set
is still byte-identical and nothing is embedded.) -/
theorem C3_counterexample :
    (cmd_sync true true
        (cmd_sync true true [] [("/default-user/memory/empty.md", ⟨1, 0⟩)]
          (fun _ => some "")).store
        [("/default-user/memory/empty.md", ⟨1, 0⟩)]
        (fun _ => some "")).outcome.indexedCount = some 1 ∧
    (cmd_sync true true
        (cmd_sync true true [] [("/default-user/memory/empty.md", ⟨1, 0⟩)]
          (fun _ => some "")).store
        [("/default-user/memory/empty.md", ⟨1, 0⟩)]
        (fun _ => some "")).outcome.indexedCount ≠ some 0 :=
  ⟨by decide, by decide⟩

/-- Claim C3 (amended): calling `cmd_sync` twice with no document changes
between the calls (same paths, keyed by unique paths, same mtimes/sizes and
contents), *provided every current document is readable and produces at
least one chunk*, yields `indexed = 0` and `deleted = 0` on the second
call, embeds nothing (zero re-embedding work), and leaves the stored chunk
set identical. -/
theorem C3_thm (store : List Chunk) (cf : List (String × FileMeta))
    (rf : String → Option String)
    (hnd : (cf.map Prod.fst).Nodup)
    (hread : ∀ pm ∈ cf, ∃ content, rf pm.1 = some content ∧
      chunk_markdown content pm.1 CHUNK_TOKENS CHUNK_OVERLAP ≠ []) :
    (cmd_sync true true (cmd_sync true true store cf rf).store cf rf).outcome
      = .ok 0 0 cf.length none ∧
    (cmd_sync true true (cmd_sync true true store cf rf).store cf rf).store
      = (cmd_sync true true store cf rf).store ∧
    (cmd_sync true true (cmd_sync true true store cf rf).store cf rf).embedded
      = 0 := by
  by_cases hcf : cf = []
  · subst hcf
    exact ⟨rfl, rfl, rfl⟩
  · obtain ⟨hA, hB⟩ := cmd_sync_post store cf rf hcf hnd hread
    have hfti2 : filesToIndex (cmd_sync true true store cf rf).store cf = [] :=
      filesToIndex_eq_nil hA
    have hftd2 : filesToDelete (cmd_sync true true store cf rf).store cf = [] :=
      filesToDelete_eq_nil hB
    have h1 : cf.isEmpty = false := isEmpty_false_of_ne_nil hcf
    generalize hs1 : (cmd_sync true true store cf rf).store = s1
      at hfti2 hftd2 ⊢
    simp only [cmd_sync]
    rw [if_neg (show ¬(true = false) by decide), if_neg (by simp [h1]),
      if_pos ⟨by rw [hfti2]; rfl, by rw [hftd2]; rfl⟩]
    exact ⟨rfl, rfl, rfl⟩

/-- Claim C3 witness. -/
theorem C3_witness :
    ((([("/default-user/memory/a.md", (⟨1, 5⟩ : FileMeta))].map
        Prod.fst).Nodup) ∧
      (∀ pm ∈ [("/default-user/memory/a.md", (⟨1, 5⟩ : FileMeta))],
        ∃ content, (fun (_ : String) => some "hello") pm.1 = some content ∧
          chunk_markdown content pm.1 CHUNK_TOKENS CHUNK_OVERLAP ≠ [])) ∧
    (cmd_sync true true
        (cmd_sync true true [] [("/default-user/memory/a.md", ⟨1, 5⟩)]
          (fun _ => some "hello")).store
        [("/default-user/memory/a.md", ⟨1, 5⟩)]
        (fun _ => some "hello")).outcome
      = .ok 0 0 1 none :=
  ⟨⟨by decide,
    by
      intro pm hpm
      rcases List.mem_singleton.mp hpm with rfl
      exact ⟨"hello", rfl, by decide⟩⟩,
    (C3_thm [] [("/default-user/memory/a.md", ⟨1, 5⟩)]
      (fun _ => some "hello") (by decide)
      (by
        intro pm hpm
        rcases List.mem_singleton.mp hpm with rfl
        exact ⟨"hello", rfl, by decide⟩)).1⟩

/-! ### Helper lemmas: search sorting and truncation -/

theorem insertDescend_mem {e x : ScoredEntry} :
    ∀ {l : List ScoredEntry}, x ∈ insertDescend e l → x = e ∨ x ∈ l := by
  intro l
  induction l with
  | nil =>
    intro hx
    rcases List.mem_singleton.mp hx with rfl
    exact Or.inl rfl
  | cons y ys ih =>
    intro hx
    rw [insertDescend] at hx
    revert hx
    split
    · intro hx
      rcases List.mem_cons.mp hx with rfl | hx
      · exact Or.inl rfl
      · exact Or.inr hx
    · intro hx
      rcases List.mem_cons.mp hx with rfl | hx
      · exact Or.inr (List.mem_cons_self _ _)
      · rcases ih hx with h | h
        · exact Or.inl h
        · exact Or.inr (List.mem_cons_of_mem _ h)

theorem insertDescend_pairwise {e : ScoredEntry} :
    ∀ {l : List ScoredEntry},
      l.Pairwise (fun a b => b.score ≤ a.score) →
      (insertDescend e l).Pairwise (fun a b => b.score ≤ a.score) := by
  intro l
  induction l with
  | nil => intro _; exact List.pairwise_singleton _ _
  | cons x xs ih =>
    intro hpw
    rw [List.pairwise_cons] at hpw
    rw [insertDescend]
    split
    · rename_i hlt
      rw [List.pairwise_cons]
      constructor
      · intro y hy
        rcases List.mem_cons.mp hy with rfl | hy
        · exact le_of_lt hlt
        · exact le_trans (hpw.1 y hy) (le_of_lt hlt)
      · rw [List.pairwise_cons]
        exact hpw
    · rename_i hge
      rw [List.pairwise_cons]
      constructor
      · intro y hy
        rcases insertDescend_mem hy with rfl | hy
        · exact le_of_not_lt hge
        · exact hpw.1 y hy
      · exact ih hpw.2

theorem sortByScoreDescend_pairwise (l : List ScoredEntry) :
    (sortByScoreDescend l).Pairwise (fun a b => b.score ≤ a.score) := by
  have hgen : ∀ (l acc : List ScoredEntry),
      acc.Pairwise (fun a b => b.score ≤ a.score) →
      (l.foldl (fun acc e => insertDescend e acc) acc).Pairwise
        (fun a b => b.score ≤ a.score) := by
    intro l
    induction l with
    | nil => intro acc h; exact h
    | cons e rest ih =>
      intro acc h
      rw [List.foldl_cons]
      exact ih _ (insertDescend_pairwise h)
  exact hgen l [] List.Pairwise.nil

theorem filterTruncate_eq (minScore : ℚ) :
    ∀ (l : List ScoredEntry) (maxResults : Nat),
      filterTruncate minScore maxResults l
        = (l.filter (fun e => !(decide (e.score < minScore)))).take
            maxResults := by
  intro l
  induction l with
  | nil => intro maxResults; simp [filterTruncate]
  | cons e rest ih =>
    intro maxResults
    rw [filterTruncate]
    by_cases he : e.score < minScore
    · rw [if_pos he, ih maxResults, List.filter_cons,
        show (!decide (e.score < minScore)) = false by simp [he], if_neg]
      simp
    · rw [if_neg he]
      cases maxResults with
      | zero =>
        rw [if_pos rfl, List.take_zero]
      | succ k =>
        rw [if_neg (Nat.succ_ne_zero k), ih, List.filter_cons,
          show (!decide (e.score < minScore)) = true by simp [he], if_pos rfl,
          List.take_succ_cons]
        rfl

/-! ### Claim C5 -/

/-- Claim C5: on the spec's fusion scenario — vector hits
`{A: dist 0.1, B: dist 0.4}`, lexical hits ranked `[B, C]`, weights
0.7/0.3 — the merge assigns `vector_score(A)=0.9, text_score(A)=0`,
`vector_score(B)=0.6, text_score(B)=1`, `vector_score(C)=0,
text_score(C)=0.5`, fused scores `B=0.72, A=0.63, C=0.15`, and ranks
`B, A, C`; and, in general, lexical scores are assigned from the ordinal
rank as `1/(1+rank)`, regardless of the rows' raw relevance magnitudes. -/
theorem C5_thm :
    _merge_hybrid_results scenarioVectorRows (assignRankScores scenarioFtsRows)
        VECTOR_WEIGHT TEXT_WEIGHT
      = [⟨"B", some 0.6, some 1, 0.72⟩,
         ⟨"A", some 0.9, some 0, 0.63⟩,
         ⟨"C", some 0, some 0.5, 0.15⟩] ∧
    ∀ rows : List Row, (assignRankScores rows).map Row.rank_score
      = (List.range rows.length).map
          (fun i : Nat => some (1 / (1 + (i : ℚ)))) := by
  constructor
  · norm_num +decide [_merge_hybrid_results, scenarioVectorRows,
      scenarioFtsRows, assignRankScores, _bm25_rank_to_score, upsertVector,
      upsertText, sortByScoreDescend, insertDescend, VECTOR_WEIGHT,
      TEXT_WEIGHT, List.enum, List.enumFrom]
  · intro rows
    simp only [assignRankScores, List.map_map]
    have h1 : (Row.rank_score ∘ fun ir : Nat × Row =>
        (⟨ir.2.chunk_id, ir.2.distance, ir.2.raw_score,
          some (_bm25_rank_to_score ir.1)⟩ : Row))
        = (fun i => some (_bm25_rank_to_score i)) ∘ Prod.fst := rfl
    rw [h1, ← List.map_map, List.enum_map_fst]
    rfl

/-! ### Claim C7 -/

/-- Claim C7: the output loop of `cmd_search` returns, in order, the
entries whose fused score is not below `min_score`, truncated to at most
`max_results` (it equals filter-then-take); the fused list produced by
`_merge_hybrid_results` is sorted descending by fused score; and applying
`min_score = 0.5` to the fusion scenario returns exactly `B` then `A`,
dropping `C`. -/
theorem C7_thm :
    (∀ (minScore : ℚ) (maxResults : Nat) (l : List ScoredEntry),
      filterTruncate minScore maxResults l
        = (l.filter (fun e => !(decide (e.score < minScore)))).take
            maxResults) ∧
    (∀ (vr fr : List Row) (vw tw : ℚ),
      (_merge_hybrid_results vr fr vw tw).Pairwise
        (fun a b => b.score ≤ a.score)) ∧
    cmd_search true "anything" scenarioVectorRows scenarioFtsRows 6 0.5
      = ⟨[⟨"B", some 0.6, some 1, 0.72⟩, ⟨"A", some 0.9, some 0, 0.63⟩],
         none⟩ := by
  refine ⟨fun minScore l maxResults => filterTruncate_eq minScore maxResults l,
    ?_, ?_⟩
  · intro vr fr vw tw
    simp only [_merge_hybrid_results]
    exact sortByScoreDescend_pairwise _
  · norm_num +decide [cmd_search, _merge_hybrid_results, scenarioVectorRows,
      scenarioFtsRows, assignRankScores, _bm25_rank_to_score, upsertVector,
      upsertText, sortByScoreDescend, insertDescend, VECTOR_WEIGHT,
      TEXT_WEIGHT, filterTruncate, List.enum, List.enumFrom]

/-! ### Claim C9 -/

/-- Claim C9: for every query and parameter choice, `cmd_search` against a
store with no `memory_chunks` table (a freshly created, never-synced index)
returns the structured output `{results: [], message: "No memory index
found"}` — an empty result list with an informational message; being a
total function of its inputs, it raises nothing. -/
theorem C9_thm (query : String) (vectorRows ftsRowsRaw : List Row)
    (maxResults : Nat) (minScore : ℚ) :
    cmd_search false query vectorRows ftsRowsRaw maxResults minScore
      = ⟨[], some "No memory index found"⟩ := rfl

/-! ### Claim C6 -/

/-- Claim C6 counterexample: the one-line document `" "` (a single space)
chunks to the empty list — the whitespace-only buffer is dropped by
`strip()` — so line 1 of the document is covered by no chunk, refuting
unrestricted coverage. -/
theorem C6_counterexample :
    chunk_markdown " " "p" CHUNK_TOKENS CHUNK_OVERLAP = [] ∧
    splitLines " " = [" "] ∧
    ¬ covers (chunk_markdown " " "p" CHUNK_TOKENS CHUNK_OVERLAP) 1 :=
  ⟨by decide, by decide, by decide⟩

/-- Claim C6 (amended): for any document in which every line contains a
non-whitespace character, the union of the emitted chunks'
`[start_line, end_line]` ranges covers every line of the document at least
once; and for *every* document without restriction, no emitted chunk has
`start_line > end_line`. -/
theorem C6_thm (content path : String) (chunk_tokens overlap : Nat) :
    ((∀ l ∈ splitLines content, hasNonWs l) →
      ∀ i, 1 ≤ i → i ≤ (splitLines content).length →
        covers (chunk_markdown content path chunk_tokens overlap) i) ∧
    (∀ ch ∈ chunk_markdown content path chunk_tokens overlap,
      ch.start_line ≤ ch.end_line) := by
  constructor
  · intro hws
    exact (chunk_markdown_cover_chain content path chunk_tokens overlap hws).1
  · intro ch hch
    exact (chunk_markdown_se content path chunk_tokens overlap ch hch).2

/-- Claim C6 witness. -/
theorem C6_witness :
    (∀ l ∈ splitLines "ab\ncd", hasNonWs l) ∧
    (∀ i, 1 ≤ i → i ≤ (splitLines "ab\ncd").length →
      covers (chunk_markdown "ab\ncd" "p" CHUNK_TOKENS CHUNK_OVERLAP) i) :=
  ⟨by decide,
    (C6_thm "ab\ncd" "p" CHUNK_TOKENS CHUNK_OVERLAP).1 (by decide)⟩

/-! ### Claim C8 -/

/-- Claim C8 counterexample: with a 4-character chunk budget and
4-character overlap budget (`chunk_tokens = overlap = 1`), the
17-character document `"aaaa\n   \n   \nbbbb"` exceeds one chunk's
budget, yet the cut at line 3 is whitespace-only and dropped, so the
consecutive emitted pair `[1,2]`, `[3,4]` has
`second.start_line = 3 > 2 = first.end_line`. -/
theorem C8_counterexample :
    chunk_markdown "aaaa\n   \n   \nbbbb" "p" 1 1
      = [⟨"aaaa", "p", 1, 1⟩, ⟨"aaaa", "p", 1, 2⟩,
         ⟨"bbbb", "p", 3, 4⟩, ⟨"bbbb", "p", 4, 4⟩] ∧
    1 * CHARS_PER_TOKEN < ("aaaa\n   \n   \nbbbb" : String).length ∧
    ¬ (chunk_markdown "aaaa\n   \n   \nbbbb" "p" 1 1).Chain'
        (fun a b => b.start_line ≤ a.end_line) := by
  refine ⟨by decide, by decide, ?_⟩
  intro h
  rw [show chunk_markdown "aaaa\n   \n   \nbbbb" "p" 1 1
      = [⟨"aaaa", "p", 1, 1⟩, ⟨"aaaa", "p", 1, 2⟩,
         ⟨"bbbb", "p", 3, 4⟩, ⟨"bbbb", "p", 4, 4⟩] from by decide] at h
  rw [List.chain'_cons, List.chain'_cons] at h
  exact absurd h.2.1 (by decide)

/-- Claim C8 (amended): for every document in which every line contains a
non-whitespace character (so no cut buffer is dropped as whitespace-only),
each consecutive pair of emitted chunks satisfies
`second.start_line ≤ first.end_line` (non-zero line overlap), for every
chunk-size and overlap parameter. -/
theorem C8_thm (content path : String) (chunk_tokens overlap : Nat)
    (hws : ∀ l ∈ splitLines content, hasNonWs l) :
    (chunk_markdown content path chunk_tokens overlap).Chain'
      (fun a b => b.start_line ≤ a.end_line) :=
  (chunk_markdown_cover_chain content path chunk_tokens overlap hws).2

/-- Claim C8 witness. -/
theorem C8_witness :
    (∀ l ∈ splitLines "aa\nbbbb", hasNonWs l) ∧
    (chunk_markdown "aa\nbbbb" "p" 1 1).Chain'
      (fun a b => b.start_line ≤ a.end_line) :=
  ⟨by decide, C8_thm "aa\nbbbb" "p" 1 1 (by decide)⟩

/-! ### Claim C10 -/

/-- Claim C10: when the document's last line brings the accumulation
buffer up to the chunk budget, the cut at that line is followed by one
extra final chunk consisting only of the retained overlap window.
Concretely, with 4-character chunk and overlap budgets, `"aa\nbbbb"` cuts
at its last line (line 2) emitting `⟨"aa\nbbbb", 1, 2⟩` and then flushes
the retained window as an additional chunk `⟨"bbbb", 2, 2⟩`: the pair of
emitted chunks satisfies — stated via `Chain'` on the two-element result —
that the second's line range is contained in the first's and the second's
text is a strict suffix of (duplicates the tail of) the first's text. -/
theorem C10_thm :
    chunk_markdown "aa\nbbbb" "p" 1 1
      = [⟨"aa\nbbbb", "p", 1, 2⟩, ⟨"bbbb", "p", 2, 2⟩] ∧
    (chunk_markdown "aa\nbbbb" "p" 1 1).Chain'
      (fun a b => a.start_line ≤ b.start_line ∧ b.end_line ≤ a.end_line) ∧
    (chunk_markdown "aa\nbbbb" "p" 1 1).Chain'
      (fun a b => b.text.data.IsSuffix a.text.data ∧
        b.text.length < a.text.length) ∧
    (splitLines "aa\nbbbb").length = 2 := by
  have heq : chunk_markdown "aa\nbbbb" "p" 1 1
      = [⟨"aa\nbbbb", "p", 1, 2⟩, ⟨"bbbb", "p", 2, 2⟩] := by decide
  refine ⟨heq, ?_, ?_, by decide⟩
  · rw [heq]
    exact List.chain'_cons.mpr ⟨⟨by decide, by decide⟩,
      List.chain'_singleton _⟩
  · rw [heq]
    exact List.chain'_cons.mpr
      ⟨⟨⟨("aa\n" : String).data, by decide⟩, by decide⟩,
        List.chain'_singleton _⟩

end MemoryIndex
